import Mathlib

/-!
Verification of the PLEX-Runtime repository.

This file is a shallow embedding, in Lean 4, of the two algorithmic cores of
the repository:

* the BM25-style sparse ranking engine (`SparseEngine` in `src/plex-demo.js`,
  `src/plex-vs-dense-demo.mjs`, `src/unnamed/part_000` and
  `src/unnamed/part_001`), and
* the bounded-concurrency pulse executor (`PlexRuntime` in `src/plex.js`).

Modelling conventions, used throughout:

* JavaScript numbers are modelled as real numbers (`ℝ`).  All quantities the
  sources compute are small integers, quotients of such, and `Math.log` of
  such quotients, so the only divergence from IEEE doubles is rounding, which
  is out of scope here; theorems about the numeric layer are about the exact
  real-number values of the source formulas.  Division in `ℝ` in Mathlib
  totalises `x / 0 = 0` whereas JS produces `NaN` or `±Infinity`; each place
  where a division by zero is reachable is either guarded by the same
  condition the source checks, proved unreachable under the theorem's
  hypotheses, or modelled explicitly with an `Option ℝ` (`none` standing for
  a non-finite JS number), as in `avgLenJS`.
* JS `Map`s keyed by strings are modelled by the functions they compute from
  the data they were built from: the document-frequency map built in
  `init` is `df`, the idf map is `idfOf` (with `Map.get(q) || 0` becoming
  the `0` default for absent keys), and the per-document term-frequency maps
  (`docFreqs[i]` in `plex-vs-dense-demo.mjs`) are token counts over the very
  token list `init` builds them from.
* `tokenize` lowercases each of the four configured fields, joins them with
  single spaces, splits on whitespace runs and drops empty pieces, exactly
  as `["city","state","zip","_id"].map(f => (item[f] || "")
  .toString().toLowerCase()).join(" ").split(/\s+/).filter(Boolean)` does;
  `splitWs` below produces the maximal non-whitespace runs, which is what
  `split(/\s+/).filter(Boolean)` yields.  A missing field is an empty
  string, so a document is simply four strings.
* The pulse scheduler is embedded as a small-step system on `SchedState`.
  The JS event loop launches the units of a pulse in order, never launching
  while `active >= maxConcurrency`, and the in-flight units complete in an
  order determined by the latencies of the user function `fn`, which is
  unconstrained; completions may therefore interleave arbitrarily with
  admissions.  `stepF` allows exactly these moves (plus any further delay of
  admissions, a harmless superset for the universally-quantified safety
  statements proved here): `launch` admits the next unit of the current
  pulse when the counter is below the bound, `complete` finishes any
  in-flight unit, pushing its result record and decrementing the counter on
  success and failure alike (the `finally` block), and `nextPulse` starts
  the next pulse only at the barrier, when the previous pulse has fully
  drained (the `await Promise.all(inflight)` in `executePulse`).
  A unit failure is `fn` returning `Except.error`: then nothing is pushed
  (`results.push` sits after `await fn(...)` in the `try`), while the
  decrement still happens.
-/

namespace SparseEngine

/-- A document record as the engine reads it: the four configured string
fields `city`, `state`, `zip`, `_id` (`idField` here).  A missing field is
read as the empty string by `(item[f] || "")`, so the empty string models
absence. -/
structure Doc where
  city : String
  state : String
  zip : String
  idField : String
deriving DecidableEq, Inhabited, Repr

/-- Character-level embedding of `String.prototype.toLowerCase`. -/
def lowerStr (s : String) : String := ⟨s.data.map Char.toLower⟩

/-- Worker for `splitWs`: walks the characters keeping the current
non-whitespace run (reversed) in `acc`. -/
def splitWsGo : List Char → List Char → List String
  | [], acc => if acc = [] then [] else [⟨acc.reverse⟩]
  | c :: cs, acc =>
      if c.isWhitespace then
        (if acc = [] then splitWsGo cs [] else String.mk acc.reverse :: splitWsGo cs [])
      else splitWsGo cs (c :: acc)

/-- `s.split(/\s+/).filter(Boolean)`: the maximal non-whitespace runs of
`s`, in order. -/
def splitWs (s : String) : List String := splitWsGo s.data []

/-- `Array.prototype.join(" ")` on a list of strings. -/
def joinSp : List String → String
  | [] => ""
  | [s] => s
  | s :: rest => s ++ " " ++ joinSp rest

/-- `tokenize` / `itemToTokens` from the sources: lowercase the four fields,
join with spaces, split on whitespace, drop empties. -/
def tokenize (d : Doc) : List String :=
  splitWs (joinSp ([d.city, d.state, d.zip, d.idField].map lowerStr))

/-- Total token count of the corpus: the running `totalLen` accumulated by
`init` over `docs.forEach`. -/
def totalLen (docs : List Doc) : ℕ :=
  (docs.map (fun d => (tokenize d).length)).sum

/-- `this.avgLen = totalLen / docs.length` from `init`, as a real number.
For `docs = []` the JS value is `0/0 = NaN`; see `avgLenJS` for the
embedding that keeps that distinction. -/
noncomputable def avgLen (docs : List Doc) : ℝ :=
  (totalLen docs : ℝ) / (docs.length : ℝ)

/-- JS division of two non-negative integers, keeping the non-finite case:
`b = 0` gives `NaN` (when `a = 0`) or `+Infinity` (when `a ≠ 0`), neither a
finite number, modelled `none`. -/
noncomputable def jsDivNat (a b : ℕ) : Option ℝ :=
  if b = 0 then none else some ((a : ℝ) / (b : ℝ))

/-- The `averageDocumentLength` the JS `init` actually stores, with `none`
marking a non-finite JS number.  `init` performs no emptiness check, so for
an empty corpus this is `0/0 = NaN = none`. -/
noncomputable def avgLenJS (docs : List Doc) : Option ℝ :=
  jsDivNat (totalLen docs) docs.length

/-- Document frequency of a term: the count the `df` map of `init` holds
after the pass, i.e. the number of documents containing the term at least
once (each document's `new Set(tokens)` increments each of its distinct
terms exactly once). -/
def df (docs : List Doc) (t : String) : ℕ :=
  docs.countP (fun d => (tokenize d).contains t)

/-- The argument of `Math.log` in the idf formula of `init`:
`(N - df + 0.5) / (df + 0.5) + 1`. -/
noncomputable def idfArg (n d : ℕ) : ℝ :=
  ((n : ℝ) - (d : ℝ) + 0.5) / ((d : ℝ) + 0.5) + 1

/-- The idf value `init` stores for a term with document frequency `d` in a
corpus of `n` documents. -/
noncomputable def idfVal (n d : ℕ) : ℝ := Real.log (idfArg n d)

/-- The idf lookup `this.idf.get(q) || 0` used by the scorers: the map holds
exactly the terms with positive document frequency, and an absent term
contributes `0`. -/
noncomputable def idfOf (docs : List Doc) (t : String) : ℝ :=
  if df docs t = 0 then 0 else idfVal docs.length (df docs t)

/-- `this.k1 = 1.2` in every source variant. -/
noncomputable def k1 : ℝ := 1.2

/-- `this.b = 0.75` in every source variant. -/
noncomputable def bParam : ℝ := 0.75

/-- `SparseEngine.score(queryTokens, doc)` from `src/plex-demo.js` lines
63-79 (identically `src/unnamed/part_000` lines 80-93): re-tokenizes the
document, builds its term-frequency map, and sums over the query tokens,
skipping tokens with `tf = 0` (`if (!tf) continue`). -/
noncomputable def score (docs : List Doc) (q : List String) (d : Doc) : ℝ :=
  (q.map (fun qt =>
    let tf : ℕ := (tokenize d).count qt
    if tf = 0 then 0 else
      idfOf docs qt *
        (((tf : ℝ) * (k1 + 1)) /
          ((tf : ℝ) + k1 * (1 - bParam + bParam * ((tokenize d).length : ℝ) / avgLen docs)))
  )).sum

/-- The document length the cached scorer computes on each call:
`Array.from(tokens.values()).reduce((a, b) => a + b, 0)`, i.e. the sum of
the stored per-term counts (one entry per distinct token of the document).
-/
def docLenCached (d : Doc) : ℕ :=
  ((tokenize d).dedup.map (fun t => (tokenize d).count t)).sum

/-- The document at index `i` of the stored corpus, `this.docs[docIndex]`.
The scorers below are only ever applied at indices below the corpus length,
where the default never fires. -/
def docAt (docs : List Doc) (i : ℕ) : Doc := docs.getD i default

/-- `SparseEngine.score(query, docIndex)` from `src/plex-vs-dense-demo.mjs`
lines 76-87: looks up the precomputed term-frequency map `docFreqs[docIndex]`
(built by `init` from `tokenize(docs[docIndex])`), skips `tf = 0` tokens, and
uses `lenFactor = docLen / (this.avgLen || 1)`. -/
noncomputable def scoreCached (docs : List Doc) (q : List String) (i : ℕ) : ℝ :=
  (q.map (fun qt =>
    let tf : ℕ := (tokenize (docAt docs i)).count qt
    if tf = 0 then 0 else
      idfOf docs qt *
        (((tf : ℝ) * (k1 + 1)) /
          ((tf : ℝ) + k1 * (1 - bParam + bParam *
            ((docLenCached (docAt docs i) : ℝ) / (if avgLen docs = 0 then 1 else avgLen docs)))))
  )).sum

/-- `SparseEngine.search(query)` from `src/plex-vs-dense-demo.mjs` lines
89-97: lowercases the query tokens, scores every document index in order,
and keeps `(doc, score)` exactly when the score is strictly positive.  No
sorting is applied. -/
noncomputable def search (docs : List Doc) (query : List String) : List (Doc × ℝ) :=
  (List.range docs.length).filterMap (fun i =>
    if 0 < scoreCached docs (query.map lowerStr) i then
      some (docAt docs i, scoreCached docs (query.map lowerStr) i)
    else none)

/-- The index list underlying `search`: the document indices with strictly
positive score, in original order.  Used to state what `search` returns. -/
noncomputable def positiveIdx (docs : List Doc) (query : List String) : List ℕ :=
  (List.range docs.length).filter
    (fun i => decide (0 < scoreCached docs (query.map lowerStr) i))

/-- A JavaScript number as the unguarded scorer of `src/unnamed/part_001`
can produce it: a finite real, one of the two infinities, or `NaN`.  The
other scorer variants guard `tf = 0` with `continue` and stay finite, but
`scoreDoc` always evaluates its `norm` expression, and on a corpus whose
documents all tokenize to nothing it divides `0/0`.  Arithmetic on finite
operands is exact real arithmetic (rounding is out of scope file-wide);
the non-finite cases follow the IEEE-754 rules JS uses.  `ℝ` has no signed
zero, so the `-0` divisor cases of JS cannot be expressed; no source
expression produces `-0` from the non-negative inputs involved here. -/
inductive JsVal where
  | num (x : ℝ)
  | posInf
  | negInf
  | nan

/-- JS addition: finite + finite is exact, any `NaN` operand gives `NaN`,
an infinity absorbs finite values, and opposite infinities give `NaN`. -/
noncomputable def jsAdd : JsVal → JsVal → JsVal
  | JsVal.num a, JsVal.num b => JsVal.num (a + b)
  | JsVal.num _, JsVal.posInf => JsVal.posInf
  | JsVal.posInf, JsVal.num _ => JsVal.posInf
  | JsVal.num _, JsVal.negInf => JsVal.negInf
  | JsVal.negInf, JsVal.num _ => JsVal.negInf
  | JsVal.posInf, JsVal.posInf => JsVal.posInf
  | JsVal.negInf, JsVal.negInf => JsVal.negInf
  | JsVal.posInf, JsVal.negInf => JsVal.nan
  | JsVal.negInf, JsVal.posInf => JsVal.nan
  | _, _ => JsVal.nan

/-- JS multiplication: finite times finite is exact, any `NaN` operand
gives `NaN`, zero times an infinity gives `NaN`, and a non-zero finite
factor gives a sign-matched infinity. -/
noncomputable def jsMul : JsVal → JsVal → JsVal
  | JsVal.num a, JsVal.num b => JsVal.num (a * b)
  | JsVal.num a, JsVal.posInf =>
      if a = 0 then JsVal.nan else if 0 < a then JsVal.posInf else JsVal.negInf
  | JsVal.posInf, JsVal.num a =>
      if a = 0 then JsVal.nan else if 0 < a then JsVal.posInf else JsVal.negInf
  | JsVal.num a, JsVal.negInf =>
      if a = 0 then JsVal.nan else if 0 < a then JsVal.negInf else JsVal.posInf
  | JsVal.negInf, JsVal.num a =>
      if a = 0 then JsVal.nan else if 0 < a then JsVal.negInf else JsVal.posInf
  | JsVal.posInf, JsVal.posInf => JsVal.posInf
  | JsVal.negInf, JsVal.negInf => JsVal.posInf
  | JsVal.posInf, JsVal.negInf => JsVal.negInf
  | JsVal.negInf, JsVal.posInf => JsVal.negInf
  | _, _ => JsVal.nan

/-- JS division: finite by non-zero finite is exact, `0/0` is `NaN`, a
non-zero finite numerator over zero gives a sign-matched infinity, a finite
numerator over an infinity gives `0`, an infinite numerator over a finite
divisor gives a sign-matched infinity, infinity over infinity is `NaN`, and
any `NaN` operand gives `NaN`. -/
noncomputable def jsDiv : JsVal → JsVal → JsVal
  | JsVal.num a, JsVal.num b =>
      if b = 0 then
        (if a = 0 then JsVal.nan else if 0 < a then JsVal.posInf else JsVal.negInf)
      else JsVal.num (a / b)
  | JsVal.num _, JsVal.posInf => JsVal.num 0
  | JsVal.num _, JsVal.negInf => JsVal.num 0
  | JsVal.posInf, JsVal.num b => if 0 ≤ b then JsVal.posInf else JsVal.negInf
  | JsVal.negInf, JsVal.num b => if 0 ≤ b then JsVal.negInf else JsVal.posInf
  | JsVal.posInf, JsVal.posInf => JsVal.nan
  | JsVal.posInf, JsVal.negInf => JsVal.nan
  | JsVal.negInf, JsVal.posInf => JsVal.nan
  | JsVal.negInf, JsVal.negInf => JsVal.nan
  | _, _ => JsVal.nan

/-- `this.avgDocLen = totalLen / N` as `init` of `src/unnamed/part_001`
stores it, as a JS number (the formula is the same `totalLen / docs.length`
as the other variants; for `N = 0` it is `NaN`). -/
noncomputable def avgDocLenJS (docs : List Doc) : JsVal :=
  jsDiv (JsVal.num (totalLen docs)) (JsVal.num docs.length)

/-- `SparseEngine.scoreDoc(tokens, docIndex)` from `src/unnamed/part_001`
lines 54-70, the variant WITHOUT the `if (!tf) continue` guard: for every
query token it evaluates
`norm = (tf * (k1 + 1)) / (tf + k1 * (1 - b + b * docLen / avgDocLen))`
and accumulates `score += idf * norm`, starting from `0`.  `tf` is the
count of the token in the re-tokenized document, `idf` the
`this.idf.get(term) || 0` lookup; both are finite JS numbers, as are the
constant subexpressions `k1 + 1` and `1 - b`, which are folded here (exact
finite arithmetic).  The division `b * docLen / avgDocLen` and everything
downstream of it is computed in `JsVal`, since `avgDocLen` can be `0` (all
documents empty, giving `0/0 = NaN`) or `NaN` (empty corpus). -/
noncomputable def scoreDoc (docs : List Doc) (q : List String) (i : ℕ) : JsVal :=
  q.foldl (fun acc term =>
    jsAdd acc
      (jsMul (JsVal.num (idfOf docs term))
        (jsDiv
          (jsMul (JsVal.num ((tokenize (docAt docs i)).count term)) (JsVal.num (k1 + 1)))
          (jsAdd (JsVal.num ((tokenize (docAt docs i)).count term))
            (jsMul (JsVal.num k1)
              (jsAdd (JsVal.num (1 - bParam))
                (jsDiv
                  (jsMul (JsVal.num bParam)
                    (JsVal.num ((tokenize (docAt docs i)).length)))
                  (avgDocLenJS docs))))))))
    (JsVal.num 0)

/-- The finite real value `scoreDoc` computes whenever no division by zero
occurs (corpus with at least one token): the same per-term expression with
Mathlib real division, summed over the query tokens. -/
noncomputable def scoreDocVal (docs : List Doc) (q : List String) (i : ℕ) : ℝ :=
  (q.map (fun term =>
    idfOf docs term *
      ((((tokenize (docAt docs i)).count term : ℝ) * (k1 + 1)) /
        (((tokenize (docAt docs i)).count term : ℝ) +
          k1 * (1 - bParam +
            bParam * ((tokenize (docAt docs i)).length : ℝ) / avgLen docs))))).sum

/-- The all-empty document: every field missing. -/
def emptyDoc : Doc := ⟨"", "", "", ""⟩

/-- A document whose city field is `"x"` and whose other fields are empty. -/
def xDoc : Doc := ⟨"x", "", "", ""⟩

/-- A document whose city field is `"y"` and whose other fields are empty. -/
def yDoc : Doc := ⟨"y", "", "", ""⟩

/-- A document whose city field is `"a"` and whose other fields are empty. -/
def aDoc : Doc := ⟨"a", "", "", ""⟩

end SparseEngine

namespace Plex

/-- One execution unit: `{ id: i, data: d }` built by
`dataset.map((d, i) => ({ id: i, data: d }))` in `PlexRuntime.run`. -/
structure PlexTask (α : Type) where
  id : ℕ
  data : α
deriving DecidableEq, Repr

/-- One entry of the shared `results` array:
`{ id: task.id, result: await fn(task.data) }`. -/
structure ResultRec (ρ : Type) where
  id : ℕ
  result : ρ
deriving DecidableEq, Repr

/-- The fields `PlexRuntime`'s constructor assigns: it stores `pulseSize`
and `maxConcurrency` verbatim — there is no validation anywhere — and sets
`this.active = 0`. -/
structure PlexRuntimeState where
  pulseSize : ℤ
  maxConcurrency : ℤ
  active : ℤ
deriving DecidableEq, Repr

/-- The constructor `new PlexRuntime({ pulseSize, maxConcurrency })` with
both options given explicitly: plain assignments, no checks, never throws.
-/
def mkPlexRuntime (ps mc : ℤ) : PlexRuntimeState := ⟨ps, mc, 0⟩

/-- The sequence of values of the loop variable `i` of
`for (let i = 0; i < tasks.length; i += this.pulseSize)` in
`PlexRuntime.run`: `loopIndex ps k` is `i` at the start of iteration `k`.
The loop exits before iteration `k` only if `loopIndex ps k ≥ n`. -/
def loopIndex (ps : ℤ) : ℕ → ℤ
  | 0 => 0
  | k + 1 => loopIndex ps k + ps

/-- `dataset.map((d, i) => ({ id: i, data: d }))`. -/
def mkTasks {α : Type} (dataset : List α) : List (PlexTask α) :=
  dataset.enum.map (fun p => ⟨p.1, p.2⟩)

/-- Worker for `chunks` recursing on an explicit bound (kept structural so
that concrete executions reduce): with `fuel ≥ l.length` and `ps ≥ 1` it
yields the slices `tasks.slice(i, i + pulseSize)` of the pulse loop of
`PlexRuntime.run`, in order.  The `ps = 0` and negative cases of the source
loop do not terminate and are treated separately via `loopIndex`. -/
def chunksGo {τ : Type} (ps : ℕ) : ℕ → List τ → List (List τ)
  | 0, _ => []
  | _ + 1, [] => []
  | fuel + 1, a :: l => ((a :: l).take ps) :: chunksGo ps fuel ((a :: l).drop ps)

/-- The pulses of `PlexRuntime.run` for a positive `pulseSize`. -/
def chunks {τ : Type} (ps : ℕ) (l : List τ) : List (List τ) :=
  chunksGo ps l.length l

/-- The scheduler state visible in the source: the unstarted units of the
current pulse (in admission order), the in-flight units, the shared
`results` array, the shared counter `this.active`, and the pulses not yet
begun. -/
structure SchedState (α ρ : Type) where
  pending : List (PlexTask α)
  running : List (PlexTask α)
  results : List (ResultRec ρ)
  active : ℤ
  rest : List (List (PlexTask α))
deriving DecidableEq, Repr

/-- One scheduler move; see `stepF`. -/
inductive Directive (α : Type) where
  | launch
  | complete (t : PlexTask α)
  | nextPulse
deriving DecidableEq, Repr

/-- Small-step semantics of `PlexRuntime.executePulse`/`run`:

* `launch`: the controller admits the next unit of the current pulse — only
  possible when `active < maxConcurrency` (the `while (this.active >=
  this.maxConcurrency) await Promise.race(inflight)` gate), incrementing
  `active`;
* `complete t`: any in-flight unit `t` finishes.  On success
  (`fn t.data = Except.ok r`) its record is pushed onto `results`; on
  failure nothing is pushed (the push sits after `await fn(task.data)`
  inside the `try`).  In both cases `active` is decremented — the
  `finally { this.active-- }`;
* `nextPulse`: the controller crosses the pulse barrier — only when the
  current pulse is fully drained (`await Promise.all(inflight)` resolved
  and the admission loop finished), installing the next pulse.

Completion order among in-flight units is driven by the latencies of `fn`
and is therefore arbitrary; the relation also allows the controller to
delay admissions, a superset of the event-loop behaviours that is harmless
for the safety properties proved below and irrelevant to which terminal
results are reachable. -/
def stepF {α ρ ε : Type} [DecidableEq α] (mc : ℤ) (fn : α → Except ε ρ)
    (d : Directive α) (s : SchedState α ρ) : Option (SchedState α ρ) :=
  match d with
  | .launch =>
      match s.pending with
      | [] => none
      | t :: rest =>
          if s.active < mc then
            some ⟨rest, s.running ++ [t], s.results, s.active + 1, s.rest⟩
          else none
  | .complete t =>
      if t ∈ s.running then
        some ⟨s.pending, s.running.erase t,
          s.results ++ (match fn t.data with
            | .ok r => [⟨t.id, r⟩]
            | .error _ => []),
          s.active - 1, s.rest⟩
      else none
  | .nextPulse =>
      match s.rest with
      | [] => none
      | p :: ps =>
          if s.pending = [] ∧ s.running = [] then some ⟨p, [], s.results, s.active, ps⟩
          else none

/-- Run a list of scheduler moves from a state; `none` if some move is not
enabled. -/
def runDirectives {α ρ ε : Type} [DecidableEq α] (mc : ℤ) (fn : α → Except ε ρ) :
    List (Directive α) → SchedState α ρ → Option (SchedState α ρ)
  | [], s => some s
  | d :: ds, s =>
      match stepF mc fn d s with
      | none => none
      | some s' => runDirectives mc fn ds s'

/-- The state at the top of `PlexRuntime.run`, after the dataset is paired
with its indices and before the first pulse begins. -/
def initState {α ρ : Type} (ps : ℕ) (dataset : List α) : SchedState α ρ :=
  ⟨[], [], [], 0, chunks ps (mkTasks dataset)⟩

/-- `s'` is reachable from `s` by some sequence of scheduler moves. -/
def Reaches {α ρ ε : Type} [DecidableEq α] (mc : ℤ) (fn : α → Except ε ρ)
    (s s' : SchedState α ρ) : Prop :=
  ∃ ds : List (Directive α), runDirectives mc fn ds s = some s'

/-- A terminal state of `run`: every pulse has drained and none remain. -/
def IsFinal {α ρ : Type} (s : SchedState α ρ) : Prop :=
  s.pending = [] ∧ s.running = [] ∧ s.rest = []

/-- A dataset element as the scheduler's tasks carry it: the task id is the
original index and the payload is that dataset element. -/
def GoodTask {α : Type} (dataset : List α) (t : PlexTask α) : Prop :=
  ∃ h : t.id < dataset.length, t.data = dataset.get ⟨t.id, h⟩

/-- A well-formed result record: keyed by an original index, carrying the
value of `fn` at that dataset element. -/
def GoodRes {α ρ : Type} (dataset : List α) (fn : α → ρ) (r : ResultRec ρ) : Prop :=
  ∃ h : r.id < dataset.length, r.result = fn (dataset.get ⟨r.id, h⟩)

/-- The multiset of unit ids present anywhere in a scheduler state. -/
def idsOf {α ρ : Type} (s : SchedState α ρ) : Multiset ℕ :=
  (↑(s.results.map ResultRec.id) : Multiset ℕ)
    + (↑(s.running.map PlexTask.id) : Multiset ℕ)
    + (↑(s.pending.map PlexTask.id) : Multiset ℕ)
    + (↑(s.rest.flatten.map PlexTask.id) : Multiset ℕ)

/-- The run invariant behind the output guarantee of `PlexRuntime.run` for
a total `fn`: the unit ids in the state are exactly the dataset indices
(each exactly once), every recorded result is the value of `fn` at its
index, and every not-yet-completed unit still carries its dataset element.
-/
def Inv1 {α ρ : Type} (dataset : List α) (fn : α → ρ) (s : SchedState α ρ) : Prop :=
  idsOf s = (↑(List.range dataset.length) : Multiset ℕ)
    ∧ (∀ r ∈ s.results, GoodRes dataset fn r)
    ∧ (∀ t ∈ s.running, GoodTask dataset t)
    ∧ (∀ t ∈ s.pending, GoodTask dataset t)
    ∧ (∀ t ∈ s.rest.flatten, GoodTask dataset t)

/-- A concrete per-item function for witnesses: doubling, always
succeeding. -/
def doubleFn : ℕ → Except Unit ℕ := fun n => Except.ok (2 * n)

/-- A concrete always-failing per-item function, for exercising the failure
path of the decrement invariant. -/
def failFn : ℕ → Except Unit ℕ := fun _ => Except.error ()

/-- The state `run([5])` reaches under `maxConcurrency = 0` once the first
pulse is installed: one pending unit, nothing in flight. -/
def stuck5 : SchedState ℕ ℕ := ⟨[⟨0, 5⟩], [], [], 0, []⟩

end Plex

namespace SparseEngine

theorem idfArg_eq (n d : ℕ) : idfArg n d = ((n : ℝ) + 1) / ((d : ℝ) + 0.5) := by
  unfold idfArg
  have hd : ((d : ℝ) + 0.5) ≠ 0 := by positivity
  field_simp
  ring

theorem idfArg_pos (n d : ℕ) : 0 < idfArg n d := by
  rw [idfArg_eq]
  positivity

theorem idfVal_nonneg (n d : ℕ) (h : d ≤ n) : 0 ≤ idfVal n d := by
  unfold idfVal
  rw [idfArg_eq]
  apply Real.log_nonneg
  rw [one_le_div (by positivity)]
  have : (d : ℝ) ≤ (n : ℝ) := Nat.cast_le.mpr h
  linarith

theorem df_le_length (docs : List Doc) (t : String) : df docs t ≤ docs.length :=
  List.countP_le_length _

theorem idfOf_nonneg (docs : List Doc) (t : String) : 0 ≤ idfOf docs t := by
  unfold idfOf
  split
  · exact le_refl 0
  · exact idfVal_nonneg _ _ (df_le_length docs t)

theorem avgLen_nonneg (docs : List Doc) : 0 ≤ avgLen docs :=
  div_nonneg (Nat.cast_nonneg _) (Nat.cast_nonneg _)

theorem length_le_totalLen (docs : List Doc) (d : Doc) (hd : d ∈ docs) :
    (tokenize d).length ≤ totalLen docs := by
  unfold totalLen
  exact List.single_le_sum (fun x _ => Nat.zero_le x) _
    (List.mem_map.mpr ⟨d, hd, rfl⟩)

theorem avgLen_pos_of_token (docs : List Doc) (d : Doc) (hd : d ∈ docs)
    (hne : tokenize d ≠ []) : 0 < avgLen docs := by
  unfold avgLen
  apply div_pos
  · have h1 : 1 ≤ (tokenize d).length := List.length_pos.mpr hne
    have h2 : 1 ≤ totalLen docs := le_trans h1 (length_le_totalLen docs d hd)
    exact_mod_cast h2
  · have : docs ≠ [] := List.ne_nil_of_mem hd
    have : 0 < docs.length := List.length_pos.mpr this
    exact_mod_cast this

/-- For a non-empty corpus the JS average document length is the finite real
number `avgLen`; the `Option`-valued embedding and the real-valued one agree
everywhere the theorems below use them. -/
theorem avgLenJS_eq_avgLen (docs : List Doc) (h : docs ≠ []) :
    avgLenJS docs = some (avgLen docs) := by
  unfold avgLenJS jsDivNat avgLen
  rw [if_neg (by simpa [List.length_eq_zero] using h)]

theorem docLenCached_eq (d : Doc) : docLenCached d = (tokenize d).length := by
  classical
  unfold docLenCached
  have h1 : (tokenize d).dedup.toFinset.sum (fun t => (tokenize d).count t)
      = ((tokenize d).dedup.map (fun t => (tokenize d).count t)).sum :=
    List.sum_toFinset _ (List.nodup_dedup _)
  have h2 : (tokenize d).dedup.toFinset = (tokenize d).toFinset := by
    ext a; simp [List.mem_toFinset, List.mem_dedup]
  rw [h2] at h1
  rw [← h1]
  exact List.sum_toFinset_count_eq_length _

/-- Claim C2: building corpus statistics over an empty collection.  The
source `init` performs no emptiness check: it is a total function of the
document list (plain assignments and arithmetic, nothing throws), and for
zero documents it stores `averageDocumentLength = 0/0 = NaN` (the non-finite
value, `none` in the faithful embedding `avgLenJS`) instead of failing with
an "empty corpus" error.  The second conjunct shows the value the
real-number embedding assigns at the same input. -/
theorem sparseInit_empty_corpus_no_error_nan :
    avgLenJS ([] : List Doc) = none ∧ avgLen ([] : List Doc) = 0 := by
  constructor
  · unfold avgLenJS jsDivNat
    simp
  · unfold avgLen
    simp

/-- Claim C6 (counterexample): a corpus of one document all of whose fields
are empty has `N = 1` but `averageDocumentLength = 0`, not strictly
positive: the document tokenizes to no tokens at all. -/
theorem avgLen_zero_counterexample :
    ([emptyDoc] : List Doc).length = 1 ∧ ¬ (0 < avgLen [emptyDoc]) := by
  constructor
  · decide
  · have h : totalLen [emptyDoc] = 0 := by decide
    unfold avgLen
    rw [h]
    norm_num

/-- Claim C6 (amended): for every non-empty corpus the average document
length is non-negative, and strictly positive as soon as the corpus holds at
least one token; the idf of every term observed in the corpus is finite —
`Math.log` is applied to a strictly positive (finite) argument, so its value
is a finite number. -/
theorem avgLen_nonneg_idf_finite (docs : List Doc) (hne : docs ≠ []) :
    0 ≤ avgLen docs
    ∧ (0 < totalLen docs → 0 < avgLen docs)
    ∧ ∀ t : String, 0 < df docs t → 0 < idfArg docs.length (df docs t) := by
  refine ⟨avgLen_nonneg docs, ?_, ?_⟩
  · intro hpos
    unfold avgLen
    apply div_pos
    · exact_mod_cast hpos
    · have : 0 < docs.length := List.length_pos.mpr hne
      exact_mod_cast this
  · intro t _
    exact idfArg_pos _ _

theorem avgLen_nonneg_idf_finite_witness :
    0 ≤ avgLen [aDoc] ∧ 0 < idfArg ([aDoc] : List Doc).length (df [aDoc] "a") := by
  have h := avgLen_nonneg_idf_finite [aDoc] (by decide)
  exact ⟨h.1, h.2.2 "a" (by decide)⟩

/-- Claim C8: with the source idf formula `ln((N - df + 0.5)/(df + 0.5) + 1)`
and a fixed corpus size `N ≥ 1`, a term with strictly smaller document
frequency gets a strictly larger idf, and the idf is never negative for any
`df ≤ N`. -/
theorem idf_strict_antitone_nonneg (n d1 d2 : ℕ) (hn : 1 ≤ n) (h1 : 1 ≤ d1)
    (h12 : d1 < d2) (h2 : d2 ≤ n) :
    idfVal n d2 < idfVal n d1 ∧ ∀ d : ℕ, d ≤ n → 0 ≤ idfVal n d := by
  constructor
  · unfold idfVal
    rw [idfArg_eq, idfArg_eq]
    apply Real.log_lt_log
    · positivity
    · apply div_lt_div_of_pos_left
      · positivity
      · positivity
      · have : (d1 : ℝ) < (d2 : ℝ) := Nat.cast_lt.mpr h12
        linarith
  · intro d hd
    exact idfVal_nonneg n d hd

theorem idf_strict_antitone_nonneg_witness :
    idfVal 3 2 < idfVal 3 1 ∧ 0 ≤ idfVal 3 3 := by
  have h := idf_strict_antitone_nonneg 3 1 2 (by decide) (by decide) (by decide) (by decide)
  exact ⟨h.1, h.2 3 (by decide)⟩

end SparseEngine

namespace SparseEngine

/-- The guarded re-tokenizing scorer of `src/plex-demo.js` (and
`src/unnamed/part_000`) returns a non-negative value for every indexed
document, and returns exactly `0` whenever no query token occurs in the
document.  (One half of the amended claim C7; the unguarded `scoreDoc`
variant of `src/unnamed/part_001` is treated separately.) -/
theorem score_nonneg_and_zero_when_no_match (docs : List Doc) (q : List String) (d : Doc)
    (hd : d ∈ docs) :
    0 ≤ score docs q d
      ∧ ((∀ t ∈ q, (tokenize d).count t = 0) → score docs q d = 0) := by
  constructor
  · apply List.sum_nonneg
    intro x hx
    rcases List.mem_map.mp hx with ⟨qt, _hqt, rfl⟩
    by_cases htf : (tokenize d).count qt = 0
    · simp [htf]
    · simp only [if_neg htf]
      apply mul_nonneg (idfOf_nonneg docs qt)
      apply div_nonneg
      · apply mul_nonneg (Nat.cast_nonneg _)
        unfold k1
        norm_num
      · have hy : (0 : ℝ) ≤ ((tokenize d).length : ℝ) / avgLen docs :=
          div_nonneg (Nat.cast_nonneg _) (avgLen_nonneg docs)
        have htf0 : (0 : ℝ) ≤ ((tokenize d).count qt : ℝ) := Nat.cast_nonneg _
        rw [mul_div_assoc]
        unfold k1 bParam
        linarith
  · intro hz
    apply List.sum_eq_zero
    intro x hx
    rcases List.mem_map.mp hx with ⟨qt, hqt, rfl⟩
    simp [hz qt hqt]

/-- Claim C9: over the same corpus, the cached-index scorer of
`src/plex-vs-dense-demo.mjs` (per-document term-frequency map precomputed at
build time, document length recovered by summing the stored counts) and the
re-tokenizing scorer of `src/plex-demo.js` agree on every query and every
document index. -/
theorem docAt_mem (docs : List Doc) (i : ℕ) (hi : i < docs.length) :
    docAt docs i ∈ docs := by
  have hg : docAt docs i = docs.get ⟨i, hi⟩ := by
    unfold docAt
    simp [List.getD_eq_getElem?_getD, List.getElem?_eq_getElem hi]
  rw [hg]
  exact List.get_mem docs i hi

theorem scoreCached_eq_score (docs : List Doc) (q : List String) (i : ℕ)
    (hi : i < docs.length) :
    scoreCached docs q i = score docs q (docAt docs i) := by
  unfold scoreCached score
  congr 1
  apply List.map_congr_left
  intro qt _hqt
  by_cases htf : (tokenize (docAt docs i)).count qt = 0
  · simp [htf]
  · simp only [if_neg htf]
    have hd : docAt docs i ∈ docs := docAt_mem docs i hi
    have htok : qt ∈ tokenize (docAt docs i) :=
      List.count_pos_iff.mp (Nat.pos_of_ne_zero htf)
    have havg : 0 < avgLen docs :=
      avgLen_pos_of_token docs _ hd (List.ne_nil_of_mem htok)
    rw [if_neg (ne_of_gt havg), docLenCached_eq]
    ring

theorem scoreCached_eq_score_witness :
    scoreCached [yDoc] ["y"] 0 = score [yDoc] ["y"] (docAt [yDoc] 0) :=
  scoreCached_eq_score [yDoc] ["y"] 0 (by decide)

end SparseEngine

namespace SparseEngine

theorem filterMap_ite_eq_filter_map {β γ : Type} (p : β → Prop) [DecidablePred p]
    (g : β → γ) (l : List β) :
    (l.filterMap (fun x => if p x then some (g x) else none))
      = (l.filter (fun x => decide (p x))).map g := by
  induction l with
  | nil => rfl
  | cons a t ih =>
      by_cases hp : p a
      · simp [List.filterMap_cons, List.filter_cons, hp, ih]
      · simp [List.filterMap_cons, List.filter_cons, hp, ih]

/-- Claim C5 (amended): `search` returns exactly the `(document, score)`
pairs of the documents with strictly positive score — zero-score documents
are omitted — in the original document order; no sorting of any kind is
applied.  `positiveIdx` is the strictly increasing list of positive-score
indices, characterized by the last conjunct. -/
theorem search_positive_scores_original_order (docs : List Doc) (query : List String) :
    search docs query
        = (positiveIdx docs query).map
            (fun i => (docAt docs i, scoreCached docs (query.map lowerStr) i))
    ∧ (positiveIdx docs query).Pairwise (· < ·)
    ∧ ∀ i : ℕ, i ∈ positiveIdx docs query
        ↔ i < docs.length ∧ 0 < scoreCached docs (query.map lowerStr) i := by
  refine ⟨?_, ?_, ?_⟩
  · unfold search positiveIdx
    exact filterMap_ite_eq_filter_map _ _ _
  · exact (List.pairwise_lt_range _).filter _
  · intro i
    unfold positiveIdx
    simp [List.mem_filter, List.mem_range]

theorem tokenize_xDoc : tokenize xDoc = ["x"] := by decide

theorem tokenize_yDoc : tokenize yDoc = ["y"] := by decide

theorem scoreCached_xy_at_zero : scoreCached [xDoc, yDoc] ["y"] 0 = 0 := by
  have hcount : (tokenize (docAt [xDoc, yDoc] 0)).count "y" = 0 := by decide
  unfold scoreCached
  simp [hcount]

theorem avgLen_xy : avgLen [xDoc, yDoc] = 1 := by
  unfold avgLen
  rw [show totalLen [xDoc, yDoc] = 2 by decide]
  norm_num

theorem scoreCached_xy_at_one_pos : 0 < scoreCached [xDoc, yDoc] ["y"] 1 := by
  have hcount : (tokenize (docAt [xDoc, yDoc] 1)).count "y" = 1 := by decide
  have hlen : docLenCached (docAt [xDoc, yDoc] 1) = 1 := by decide
  have hdf : df [xDoc, yDoc] "y" = 1 := by decide
  have hidf : idfOf [xDoc, yDoc] "y" = Real.log 2 := by
    unfold idfOf idfVal
    rw [hdf]
    rw [show ([xDoc, yDoc] : List Doc).length = 2 from rfl]
    norm_num
    rw [idfArg_eq]
    norm_num
  unfold scoreCached
  rw [show (["y"] : List String) = ["y"] from rfl]
  simp only [List.map_cons, List.map_nil, List.sum_cons, List.sum_nil, hcount]
  rw [if_neg (by norm_num), hidf, hlen, avgLen_xy]
  rw [if_neg (by norm_num)]
  have hlog : 0 < Real.log 2 := Real.log_pos (by norm_num)
  unfold k1 bParam
  have hfac : (0 : ℝ) <
      ((1 : ℕ) : ℝ) * ((1.2 : ℝ) + 1) /
        (((1 : ℕ) : ℝ) + 1.2 * (1 - 0.75 + 0.75 * (((1 : ℕ) : ℝ) / 1))) := by
    norm_num
  positivity

/-- Claim C5 (counterexample): on the two-document corpus `[xDoc, yDoc]`
with query `"y"`, `search` returns a single pair — the zero-score document
`xDoc` is dropped — so the result is not the full set of `(index, score)`
pairs for all documents. -/
theorem search_drops_zero_score_counterexample :
    ([xDoc, yDoc] : List Doc).length = 2 ∧ (search [xDoc, yDoc] ["y"]).length = 1 := by
  constructor
  · decide
  · unfold search
    rw [show ([xDoc, yDoc] : List Doc).length = 2 from rfl]
    rw [show List.range 2 = [0, 1] from rfl]
    rw [show (["y"] : List String).map lowerStr = ["y"] from rfl]
    rw [List.filterMap_cons, List.filterMap_cons, List.filterMap_nil]
    rw [scoreCached_xy_at_zero]
    rw [if_neg (lt_irrefl 0), if_pos scoreCached_xy_at_one_pos]
    rfl

end SparseEngine

namespace Plex

theorem runDirectives_pres {α ρ ε : Type} [DecidableEq α] (mc : ℤ) (fn : α → Except ε ρ)
    (P : SchedState α ρ → Prop)
    (hstep : ∀ d s s', stepF mc fn d s = some s' → P s → P s') :
    ∀ (ds : List (Directive α)) (s s' : SchedState α ρ),
      runDirectives mc fn ds s = some s' → P s → P s' := by
  intro ds
  induction ds with
  | nil =>
      intro s s' h hP
      simp only [runDirectives, Option.some.injEq] at h
      rwa [← h]
  | cons d ds ih =>
      intro s s' h hP
      simp only [runDirectives] at h
      cases heq : stepF mc fn d s with
      | none => rw [heq] at h; cases h
      | some s1 =>
          rw [heq] at h
          exact ih s1 s' h (hstep d s s1 heq hP)

theorem step_active_le {α ρ ε : Type} [DecidableEq α] (mc : ℤ) (fn : α → Except ε ρ) :
    ∀ (d : Directive α) (s s' : SchedState α ρ), stepF mc fn d s = some s' →
      s.active ≤ mc → s'.active ≤ mc := by
  intro d s s' h hP
  cases d with
  | launch =>
      simp only [stepF] at h
      cases hp : s.pending with
      | nil => rw [hp] at h; cases h
      | cons t rest =>
          rw [hp] at h
          split_ifs at h with hlt
          injection h with h2
          rw [← h2]
          simpa using hlt
  | complete t =>
      simp only [stepF] at h
      split_ifs at h with hmem
      injection h with h2
      rw [← h2]
      simp only []
      omega
  | nextPulse =>
      simp only [stepF] at h
      cases hr : s.rest with
      | nil => rw [hr] at h; cases h
      | cons p ps =>
          rw [hr] at h
          split_ifs at h with hb
          injection h with h2
          rw [← h2]
          simpa using hP

/-- Claim C4: for every dataset, per-item function and valid configuration
with maximum concurrency `mc ≥ 1`, every state reachable during a
`PlexRuntime.run` execution keeps the shared `active` counter at or below
`mc`: the admission gate increments only below the bound and every other
move only decreases or preserves the counter. -/
theorem plex_activeCount_le_maxConcurrency {α ρ ε : Type} [DecidableEq α]
    (mc : ℤ) (ps : ℕ) (dataset : List α) (fn : α → Except ε ρ)
    (s' : SchedState α ρ) (hmc : 1 ≤ mc) (hps : 1 ≤ ps)
    (h : Reaches mc fn (initState ps dataset) s') : s'.active ≤ mc := by
  obtain ⟨ds, hds⟩ := h
  refine runDirectives_pres mc fn (fun s => s.active ≤ mc)
    (step_active_le mc fn) ds _ s' hds ?_
  show (0 : ℤ) ≤ mc
  omega

theorem plex_activeCount_le_maxConcurrency_witness :
    (⟨[], [⟨0, 7⟩], [], 1, []⟩ : SchedState ℕ ℕ).active ≤ 1 :=
  plex_activeCount_le_maxConcurrency 1 1 [7] doubleFn _ (by omega) (by omega)
    ⟨[Directive.nextPulse, Directive.launch], by decide⟩

theorem step_active_eq_running {α ρ ε : Type} [DecidableEq α] (mc : ℤ)
    (fn : α → Except ε ρ) :
    ∀ (d : Directive α) (s s' : SchedState α ρ), stepF mc fn d s = some s' →
      s.active = (s.running.length : ℤ) → s'.active = (s'.running.length : ℤ) := by
  intro d s s' h hP
  cases d with
  | launch =>
      simp only [stepF] at h
      cases hp : s.pending with
      | nil => rw [hp] at h; cases h
      | cons t rest =>
          rw [hp] at h
          split_ifs at h with hlt
          injection h with h2
          rw [← h2]
          simp only [List.length_append, List.length_cons, List.length_nil]
          omega
  | complete t =>
      simp only [stepF] at h
      split_ifs at h with hmem
      injection h with h2
      rw [← h2]
      simp only []
      have hlen : (s.running.erase t).length = s.running.length - 1 :=
        List.length_erase_of_mem hmem
      have hpos : 0 < s.running.length :=
        List.length_pos.mpr (List.ne_nil_of_mem hmem)
      rw [hlen]
      omega
  | nextPulse =>
      simp only [stepF] at h
      cases hr : s.rest with
      | nil => rw [hr] at h; cases h
      | cons p ps =>
          rw [hr] at h
          split_ifs at h with hb
          injection h with h2
          rw [← h2]
          rw [hb.2] at hP
          simpa using hP

/-- Claim C10: the shared `active` counter is decremented exactly once per
launched unit, on the success path and on the failure path alike (the
`finally`), so in every reachable state it equals the number of in-flight
units; consequently it is `0` at every pulse barrier (current pulse fully
drained) and in every terminal state of `run`, whether the per-item
function succeeded or failed on any units. -/
theorem plex_active_eq_running_decrement_both_paths {α ρ ε : Type} [DecidableEq α]
    (mc : ℤ) (ps : ℕ) (dataset : List α) (fn : α → Except ε ρ)
    (s' : SchedState α ρ) (hps : 1 ≤ ps)
    (h : Reaches mc fn (initState ps dataset) s') :
    s'.active = (s'.running.length : ℤ)
      ∧ (s'.pending = [] → s'.running = [] → s'.active = 0) := by
  obtain ⟨ds, hds⟩ := h
  have hinv : s'.active = (s'.running.length : ℤ) :=
    runDirectives_pres mc fn (fun s => s.active = (s.running.length : ℤ))
      (step_active_eq_running mc fn) ds _ s' hds (by simp [initState])
  refine ⟨hinv, fun _ hrun => ?_⟩
  rw [hinv, hrun]
  rfl

theorem plex_active_eq_running_decrement_both_paths_witness :
    (⟨[], [], [], 0, []⟩ : SchedState ℕ ℕ).active
        = ((⟨[], [], [], 0, []⟩ : SchedState ℕ ℕ).running.length : ℤ)
      ∧ ((⟨[], [], [], 0, []⟩ : SchedState ℕ ℕ).pending = []
          → (⟨[], [], [], 0, []⟩ : SchedState ℕ ℕ).running = []
          → (⟨[], [], [], 0, []⟩ : SchedState ℕ ℕ).active = 0) :=
  plex_active_eq_running_decrement_both_paths 1 1 [5] failFn _ (by omega)
    ⟨[Directive.nextPulse, Directive.launch, Directive.complete ⟨0, 5⟩], by decide⟩

end Plex

namespace Plex

theorem chunksGo_flatten {τ : Type} (ps : ℕ) (hps : 1 ≤ ps) :
    ∀ (fuel : ℕ) (l : List τ), l.length ≤ fuel → (chunksGo ps fuel l).flatten = l := by
  intro fuel
  induction fuel with
  | zero =>
      intro l hl
      have : l = [] := List.eq_nil_of_length_eq_zero (Nat.le_zero.mp hl)
      rw [this]
      rfl
  | succ n ih =>
      intro l hl
      cases l with
      | nil => rfl
      | cons a tl =>
          show (((a :: tl).take ps) :: chunksGo ps n ((a :: tl).drop ps)).flatten = a :: tl
          rw [List.flatten_cons, ih _ ?_, List.take_append_drop]
          rw [List.length_drop]
          simp only [List.length_cons] at hl ⊢
          omega

theorem chunks_flatten {τ : Type} (ps : ℕ) (hps : 1 ≤ ps) (l : List τ) :
    (chunks ps l).flatten = l :=
  chunksGo_flatten ps hps l.length l le_rfl

theorem mkTasks_map_id {α : Type} (dataset : List α) :
    (mkTasks dataset).map PlexTask.id = List.range dataset.length := by
  unfold mkTasks
  rw [List.map_map]
  have hc : (PlexTask.id ∘ fun p : ℕ × α => (⟨p.1, p.2⟩ : PlexTask α)) = Prod.fst := rfl
  rw [hc, List.enum_map_fst]

theorem mkTasks_good {α : Type} (dataset : List α) :
    ∀ t ∈ mkTasks dataset, GoodTask dataset t := by
  intro t ht
  unfold mkTasks at ht
  rcases List.mem_map.mp ht with ⟨p, hp, rfl⟩
  rcases p with ⟨i, x⟩
  have h1 : dataset[i]? = some x := List.mk_mem_enum_iff_getElem?.mp hp
  rw [List.getElem?_eq_some] at h1
  rcases h1 with ⟨hlt, hget⟩
  exact ⟨hlt, hget.symm⟩

theorem initState_Inv1 {α ρ : Type} (ps : ℕ) (dataset : List α) (fn : α → ρ)
    (hps : 1 ≤ ps) : Inv1 dataset fn (initState ps dataset (ρ := ρ)) := by
  refine ⟨?_, ?_, ?_, ?_, ?_⟩
  · show idsOf (⟨[], [], [], 0, chunks ps (mkTasks dataset)⟩ : SchedState α ρ) = _
    unfold idsOf
    simp only [List.map_nil]
    rw [chunks_flatten ps hps (mkTasks dataset), mkTasks_map_id]
    simp
  · intro r hr; cases hr
  · intro t ht; cases ht
  · intro t ht; cases ht
  · intro t ht
    have ht' : t ∈ (chunks ps (mkTasks dataset)).flatten := ht
    rw [chunks_flatten ps hps (mkTasks dataset)] at ht'
    exact mkTasks_good dataset t ht'

theorem step_Inv1 {α ρ ε : Type} [DecidableEq α] (mc : ℤ) (dataset : List α)
    (fn : α → ρ) :
    ∀ (d : Directive α) (s s' : SchedState α ρ),
      stepF mc (fun a => (Except.ok (fn a) : Except ε ρ)) d s = some s' →
      Inv1 dataset fn s → Inv1 dataset fn s' := by
  intro d s s' h hP
  obtain ⟨hids, hres, hrun, hpend, hrest⟩ := hP
  cases d with
  | launch =>
      simp only [stepF] at h
      cases hp : s.pending with
      | nil => rw [hp] at h; cases h
      | cons t rest =>
          rw [hp] at h
          split_ifs at h with hlt
          injection h with h2
          rw [← h2]
          refine ⟨?_, hres, ?_, ?_, hrest⟩
          · show (↑(s.results.map ResultRec.id) + ↑((s.running ++ [t]).map PlexTask.id)
                + ↑(rest.map PlexTask.id) + ↑(s.rest.flatten.map PlexTask.id) : Multiset ℕ)
              = ↑(List.range dataset.length)
            rw [← hids]
            unfold idsOf
            rw [hp]
            simp only [List.map_append, List.map_cons]
            simp only [← Multiset.coe_add, ← Multiset.cons_coe, ← Multiset.singleton_add]
            abel
          · intro x hx
            rcases List.mem_append.mp hx with hx | hx
            · exact hrun x hx
            · have : x = t := by simpa using hx
              rw [this]
              exact hpend t (by rw [hp]; exact List.mem_cons_self t rest)
          · intro x hx
            exact hpend x (by rw [hp]; exact List.mem_cons_of_mem t hx)
  | complete t =>
      simp only [stepF] at h
      split_ifs at h with hmem
      injection h with h2
      rw [← h2]
      refine ⟨?_, ?_, ?_, hpend, hrest⟩
      · show (↑((s.results ++ ([⟨t.id, fn t.data⟩] : List (ResultRec ρ))).map ResultRec.id)
            + ↑((s.running.erase t).map PlexTask.id)
            + ↑(s.pending.map PlexTask.id) + ↑(s.rest.flatten.map PlexTask.id) : Multiset ℕ)
          = ↑(List.range dataset.length)
        rw [← hids]
        unfold idsOf
        have hperm : (↑(s.running.map PlexTask.id) : Multiset ℕ)
            = ↑((t :: s.running.erase t).map PlexTask.id) :=
          Multiset.coe_eq_coe.mpr ((List.perm_cons_erase hmem).map PlexTask.id)
        rw [hperm]
        simp only [List.map_append, List.map_cons]
        simp only [← Multiset.coe_add, ← Multiset.cons_coe, ← Multiset.singleton_add]
        abel
      · intro r hr
        rcases List.mem_append.mp hr with hr | hr
        · exact hres r hr
        · have hrt : r = ⟨t.id, fn t.data⟩ := by simpa using hr
          rcases hrun t hmem with ⟨hid, hdata⟩
          rw [hrt]
          exact ⟨hid, by rw [hdata]⟩
      · intro x hx
        exact hrun x (List.mem_of_mem_erase hx)
  | nextPulse =>
      simp only [stepF] at h
      cases hr : s.rest with
      | nil => rw [hr] at h; cases h
      | cons p pss =>
          rw [hr] at h
          split_ifs at h with hb
          injection h with h2
          rw [← h2]
          refine ⟨?_, hres, ?_, ?_, ?_⟩
          · show (↑(s.results.map ResultRec.id) + ↑(([] : List (PlexTask α)).map PlexTask.id)
                + ↑(p.map PlexTask.id) + ↑(pss.flatten.map PlexTask.id) : Multiset ℕ)
              = ↑(List.range dataset.length)
            rw [← hids]
            unfold idsOf
            rw [hr, hb.1, hb.2]
            simp only [List.flatten_cons, List.map_append, List.map_nil]
            simp only [← Multiset.coe_add, ← Multiset.cons_coe, ← Multiset.singleton_add]
            abel
          · intro x hx; cases hx
          · intro x hx
            refine hrest x ?_
            rw [hr]
            rw [List.flatten_cons]
            exact List.mem_append.mpr (Or.inl hx)
          · intro x hx
            refine hrest x ?_
            rw [hr]
            rw [List.flatten_cons]
            exact List.mem_append.mpr (Or.inr hx)

end Plex

namespace Plex

/-- Claim C1 (counterexample): `run` with `pulseSize = 2`,
`maxConcurrency = 2` on the dataset `[10, 20]` with the never-failing
doubling function, under the schedule in which the second unit's `fn`
resolves before the first's (both in flight, fully legal for the event
loop), terminates with `results = [(id 1, 40), (id 0, 20)]` — the records
are pushed in completion order, so the output sequence is not
`[fn(dataset[0]), fn(dataset[1])]` in index order. -/
theorem plexRun_completion_order_counterexample :
    runDirectives 2 doubleFn
        [Directive.nextPulse, Directive.launch, Directive.launch,
          Directive.complete ⟨1, 20⟩, Directive.complete ⟨0, 10⟩]
        (initState 2 [10, 20])
      = some ⟨[], [], [⟨1, 40⟩, ⟨0, 20⟩], 0, []⟩
    ∧ IsFinal (⟨[], [], [⟨1, 40⟩, ⟨0, 20⟩], 0, []⟩ : SchedState ℕ ℕ)
    ∧ ([⟨1, 40⟩, ⟨0, 20⟩] : List (ResultRec ℕ)) ≠ [⟨0, 20⟩, ⟨1, 40⟩] := by
  refine ⟨by decide, ⟨rfl, rfl, rfl⟩, by decide⟩

/-- Claim C1 (amended): for every dataset, every positive configuration and
every never-failing per-item function, every terminating execution of
`PlexRuntime.run` produces a `results` sequence of length `n` whose records
are keyed by the dataset indices — each index `0 ≤ i < n` occurs exactly
once, with result `fn(dataset[i])` — but in completion order of the units,
which coincides with index order only when units complete in launch order.
-/
theorem plexRun_results_keyed_permutation {α ρ ε : Type} [DecidableEq α]
    (mc : ℤ) (ps : ℕ) (dataset : List α) (fn : α → ρ) (s' : SchedState α ρ)
    (hps : 1 ≤ ps)
    (h : Reaches mc (fun a => (Except.ok (fn a) : Except ε ρ)) (initState ps dataset) s')
    (hfin : IsFinal s') :
    s'.results.length = dataset.length
    ∧ (s'.results.map ResultRec.id).Perm (List.range dataset.length)
    ∧ ∀ r ∈ s'.results, GoodRes dataset fn r := by
  obtain ⟨ds, hds⟩ := h
  have hinv : Inv1 dataset fn s' :=
    runDirectives_pres mc _ (Inv1 dataset fn) (step_Inv1 mc dataset fn) ds _ s' hds
      (initState_Inv1 ps dataset fn hps)
  obtain ⟨hids, hres, -, -, -⟩ := hinv
  obtain ⟨hp, hr, hrest⟩ := hfin
  have hco : (↑(s'.results.map ResultRec.id) : Multiset ℕ)
      = ↑(List.range dataset.length) := by
    rw [← hids]
    unfold idsOf
    rw [hp, hr, hrest]
    simp
  have hperm : (s'.results.map ResultRec.id).Perm (List.range dataset.length) :=
    Multiset.coe_eq_coe.mp hco
  refine ⟨?_, hperm, hres⟩
  have hlen := hperm.length_eq
  simpa using hlen

theorem plexRun_results_keyed_permutation_witness :
    (⟨[], [], [⟨0, 20⟩, ⟨1, 40⟩], 0, []⟩ : SchedState ℕ ℕ).results.length = 2
    ∧ ((⟨[], [], [⟨0, 20⟩, ⟨1, 40⟩], 0, []⟩ : SchedState ℕ ℕ).results.map
        ResultRec.id).Perm (List.range 2) := by
  have h := plexRun_results_keyed_permutation 2 2 [10, 20] (fun n => 2 * n)
    (⟨[], [], [⟨0, 20⟩, ⟨1, 40⟩], 0, []⟩ : SchedState ℕ ℕ) (by omega)
    (⟨[Directive.nextPulse, Directive.launch, Directive.launch,
        Directive.complete ⟨0, 10⟩, Directive.complete ⟨1, 20⟩],
      by decide⟩ : Reaches 2 (fun a => (Except.ok ((fun n => 2 * n) a) : Except Unit ℕ)) _ _)
    ⟨rfl, rfl, rfl⟩
  exact ⟨h.1, h.2.1⟩

end Plex

namespace Plex

theorem loopIndex_nonpos (ps : ℤ) (hps : ps ≤ 0) : ∀ k : ℕ, loopIndex ps k ≤ 0 := by
  intro k
  induction k with
  | zero => simp [loopIndex]
  | succ n ih =>
      show loopIndex ps n + ps ≤ 0
      omega

/-- Claim C3: the code performs no configuration validation at all.  The
constructor stores non-positive `pulseSize`/`maxConcurrency` verbatim and
returns normally.  With `pulseSize = 0` (likewise any negative value) the
loop variable of `for (let i = 0; i < tasks.length; i += this.pulseSize)`
never reaches the exit condition on a non-empty dataset, so `run` never
terminates and never raises; with `maxConcurrency = 0`, once the first pulse
is installed (the state `stuck5` reached by `run([5])`), no scheduler move
is enabled — the admission gate blocks forever on `Promise.race([])` — and
the state is not terminal.  No invalid-configuration error exists anywhere
on these paths. -/
theorem plexConfig_no_validation_nontermination :
    mkPlexRuntime 0 0 = ⟨0, 0, 0⟩
    ∧ (∀ k : ℕ, loopIndex 0 k < 1)
    ∧ (∀ k : ℕ, loopIndex (-5) k < 1)
    ∧ runDirectives 0 doubleFn [Directive.nextPulse] (initState 1 [5]) = some stuck5
    ∧ (∀ d : Directive ℕ, stepF 0 doubleFn d stuck5 = none)
    ∧ ¬ IsFinal stuck5 := by
  refine ⟨rfl, ?_, ?_, by decide, ?_, ?_⟩
  · intro k
    have h := loopIndex_nonpos 0 (by omega) k
    omega
  · intro k
    have h := loopIndex_nonpos (-5) (by omega) k
    omega
  · intro d
    cases d with
    | launch => simp [stepF, stuck5]
    | complete t => simp [stepF, stuck5]
    | nextPulse => simp [stepF, stuck5]
  · intro hf
    obtain ⟨hp, -, -⟩ := hf
    cases hp

end Plex

namespace SparseEngine

theorem avgDocLenJS_eq (docs : List Doc) (hne : docs ≠ []) :
    avgDocLenJS docs = JsVal.num (avgLen docs) := by
  unfold avgDocLenJS
  have hb : ((docs.length : ℕ) : ℝ) ≠ 0 := by
    have h0 : 0 < docs.length := List.length_pos.mpr hne
    exact_mod_cast Nat.pos_iff_ne_zero.mp h0
  show (if ((docs.length : ℕ) : ℝ) = 0 then _ else JsVal.num _) = _
  rw [if_neg hb]
  rfl

theorem jsTerm_eval (idf tf len avg acc : ℝ) (havg : 0 < avg) (htf : 0 ≤ tf)
    (hlen : 0 ≤ len) :
    jsAdd (JsVal.num acc)
        (jsMul (JsVal.num idf)
          (jsDiv (jsMul (JsVal.num tf) (JsVal.num (k1 + 1)))
            (jsAdd (JsVal.num tf)
              (jsMul (JsVal.num k1)
                (jsAdd (JsVal.num (1 - bParam))
                  (jsDiv (jsMul (JsVal.num bParam) (JsVal.num len)) (JsVal.num avg)))))))
      = JsVal.num
          (acc + idf * ((tf * (k1 + 1)) / (tf + k1 * (1 - bParam + bParam * len / avg)))) := by
  have hdiv : jsDiv (jsMul (JsVal.num bParam) (JsVal.num len)) (JsVal.num avg)
      = JsVal.num (bParam * len / avg) := by
    show (if avg = 0 then _ else JsVal.num (bParam * len / avg)) = _
    rw [if_neg (ne_of_gt havg)]
  rw [hdiv]
  have hden : tf + k1 * (1 - bParam + bParam * len / avg) ≠ 0 := by
    have h1 : (0 : ℝ) ≤ bParam * len / avg :=
      div_nonneg (mul_nonneg (by unfold bParam; norm_num) hlen) (le_of_lt havg)
    have h2 : (0 : ℝ) < tf + k1 * (1 - bParam + bParam * len / avg) := by
      unfold k1 bParam
      unfold bParam at h1
      linarith
    exact ne_of_gt h2
  simp only [jsAdd, jsMul]
  simp only [jsDiv]
  rw [if_neg hden]

theorem foldl_jsAdd_eval {σ : Type} (f : JsVal → σ → JsVal) (g : σ → ℝ)
    (hf : ∀ (a : ℝ) (t : σ), f (JsVal.num a) t = JsVal.num (a + g t)) :
    ∀ (l : List σ) (a : ℝ), l.foldl f (JsVal.num a) = JsVal.num (a + (l.map g).sum) := by
  intro l
  induction l with
  | nil =>
      intro a
      simp
  | cons t ts ih =>
      intro a
      rw [List.foldl_cons, hf a t, ih (a + g t), List.map_cons, List.sum_cons, add_assoc]

theorem scoreDoc_eval (docs : List Doc) (q : List String) (i : ℕ) (hne : docs ≠ [])
    (havg : 0 < avgLen docs) :
    scoreDoc docs q i = JsVal.num (scoreDocVal docs q i) := by
  unfold scoreDoc scoreDocVal
  rw [avgDocLenJS_eq docs hne]
  have h := foldl_jsAdd_eval
    (fun acc term =>
      jsAdd acc
        (jsMul (JsVal.num (idfOf docs term))
          (jsDiv
            (jsMul (JsVal.num ((tokenize (docAt docs i)).count term))
              (JsVal.num (k1 + 1)))
            (jsAdd (JsVal.num ((tokenize (docAt docs i)).count term))
              (jsMul (JsVal.num k1)
                (jsAdd (JsVal.num (1 - bParam))
                  (jsDiv
                    (jsMul (JsVal.num bParam)
                      (JsVal.num ((tokenize (docAt docs i)).length)))
                    (JsVal.num (avgLen docs)))))))))
    (fun term =>
      idfOf docs term *
        ((((tokenize (docAt docs i)).count term : ℝ) * (k1 + 1)) /
          (((tokenize (docAt docs i)).count term : ℝ) +
            k1 * (1 - bParam +
              bParam * ((tokenize (docAt docs i)).length : ℝ) / avgLen docs))))
    (fun a t => jsTerm_eval (idfOf docs t) _ _ _ a havg (Nat.cast_nonneg _)
      (Nat.cast_nonneg _))
    q 0
  rw [h, zero_add]

theorem scoreDocVal_nonneg (docs : List Doc) (q : List String) (i : ℕ) :
    0 ≤ scoreDocVal docs q i := by
  apply List.sum_nonneg
  intro x hx
  rcases List.mem_map.mp hx with ⟨qt, _hqt, rfl⟩
  apply mul_nonneg (idfOf_nonneg docs qt)
  apply div_nonneg
  · apply mul_nonneg (Nat.cast_nonneg _)
    unfold k1
    norm_num
  · have hy : (0 : ℝ) ≤ bParam * ((tokenize (docAt docs i)).length : ℝ) / avgLen docs :=
      div_nonneg (mul_nonneg (by unfold bParam; norm_num) (Nat.cast_nonneg _))
        (avgLen_nonneg docs)
    have htf0 : (0 : ℝ) ≤ ((tokenize (docAt docs i)).count qt : ℝ) := Nat.cast_nonneg _
    unfold k1 bParam
    unfold bParam at hy
    linarith

theorem scoreDocVal_zero (docs : List Doc) (q : List String) (i : ℕ)
    (hz : ∀ t ∈ q, (tokenize (docAt docs i)).count t = 0) :
    scoreDocVal docs q i = 0 := by
  apply List.sum_eq_zero
  intro x hx
  rcases List.mem_map.mp hx with ⟨qt, hqt, rfl⟩
  rw [hz qt hqt]
  simp

/-- Claim C7 (counterexample): on the one-document corpus `[emptyDoc]`
(every field missing, so the document tokenizes to no tokens and
`avgDocLen = 0/1 = 0`), the unguarded scorer `scoreDoc` of
`src/unnamed/part_001` applied to the query `["z"]` and the indexed
document `0` evaluates `docLen / avgDocLen = 0/0 = NaN` inside its `norm`
expression and returns `NaN` — even though no query token occurs in the
document, where the claim demands the value `0` (and a value `≥ 0`).
`NaN` is not the number `0` and satisfies no ordering relation in JS. -/
theorem scoreDoc_nan_counterexample :
    scoreDoc [emptyDoc] ["z"] 0 = JsVal.nan
    ∧ (tokenize emptyDoc).count "z" = 0
    ∧ ([emptyDoc] : List Doc).length = 1
    ∧ JsVal.nan ≠ JsVal.num 0 := by
  refine ⟨?_, by decide, by decide, fun h => JsVal.noConfusion h⟩
  have havg : avgDocLenJS [emptyDoc] = JsVal.num 0 := by
    unfold avgDocLenJS
    rw [show totalLen [emptyDoc] = 0 by decide]
    show (if (((1 : ℕ) : ℝ)) = 0 then _ else JsVal.num (((0 : ℕ) : ℝ) / ((1 : ℕ) : ℝ))) = _
    rw [if_neg (by norm_num)]
    norm_num
  have hidf : idfOf [emptyDoc] "z" = 0 := by
    unfold idfOf
    rw [show df [emptyDoc] "z" = 0 by decide]
    simp
  unfold scoreDoc
  rw [List.foldl_cons, List.foldl_nil, havg, hidf]
  rw [show (tokenize (docAt [emptyDoc] 0)).count "z" = 0 by decide]
  rw [show (tokenize (docAt [emptyDoc] 0)).length = 0 by decide]
  simp only [Nat.cast_zero]
  have step1 : jsDiv (jsMul (JsVal.num bParam) (JsVal.num 0)) (JsVal.num 0) = JsVal.nan := by
    show jsDiv (JsVal.num (bParam * 0)) (JsVal.num 0) = JsVal.nan
    rw [mul_zero]
    show (if (0 : ℝ) = 0 then (if (0 : ℝ) = 0 then JsVal.nan else _) else _) = JsVal.nan
    rw [if_pos rfl, if_pos rfl]
  rw [step1]
  rfl

/-- Claim C7 (amended): for every query token sequence and every indexed
document, the guarded scorers (`score` in `src/plex-demo.js` and
`src/unnamed/part_000`, which skip `tf = 0` terms) return a value `≥ 0`,
exactly `0` whenever no query token occurs in the document; the unguarded
`scoreDoc` of `src/unnamed/part_001` satisfies the same contract whenever
the corpus contains at least one token — its value is then the finite
number `scoreDocVal` — but on a corpus whose documents all tokenize to
nothing it returns `NaN` instead (see the counterexample). -/
theorem scorers_nonneg_zero_when_no_match (docs : List Doc) (q : List String)
    (d : Doc) (i : ℕ) (hd : d ∈ docs) (hi : i < docs.length) :
    (0 ≤ score docs q d
      ∧ ((∀ t ∈ q, (tokenize d).count t = 0) → score docs q d = 0))
    ∧ (0 < totalLen docs →
        scoreDoc docs q i = JsVal.num (scoreDocVal docs q i)
        ∧ 0 ≤ scoreDocVal docs q i
        ∧ ((∀ t ∈ q, (tokenize (docAt docs i)).count t = 0)
            → scoreDocVal docs q i = 0)) := by
  refine ⟨score_nonneg_and_zero_when_no_match docs q d hd, fun htot => ?_⟩
  have hne : docs ≠ [] := List.ne_nil_of_mem hd
  have havg : 0 < avgLen docs := by
    unfold avgLen
    apply div_pos
    · exact_mod_cast htot
    · exact_mod_cast List.length_pos.mpr hne
  exact ⟨scoreDoc_eval docs q i hne havg, scoreDocVal_nonneg docs q i,
    scoreDocVal_zero docs q i⟩

theorem scorers_nonneg_zero_witness :
    (0 ≤ score [yDoc] ["z"] yDoc ∧ score [yDoc] ["z"] yDoc = 0)
    ∧ scoreDoc [yDoc] ["z"] 0 = JsVal.num (scoreDocVal [yDoc] ["z"] 0)
    ∧ scoreDocVal [yDoc] ["z"] 0 = 0 := by
  have h := scorers_nonneg_zero_when_no_match [yDoc] ["z"] yDoc 0 (by decide) (by decide)
  have h2 := h.2 (by decide)
  exact ⟨⟨h.1.1, h.1.2 (by decide)⟩, h2.1, h2.2.2 (by decide)⟩

end SparseEngine
